import Mathlib

/-!
Shallow embedding of the bounding-box and tiled-volume-assembly core of the
vesicleEM repository (src/util/bbox.py, src/data/util/tile.py,
src/data/neuron_mask.py), together with theorems settling the
specification's claims about it.

Conventions of the embedding:
* numpy integer matrices of boxes become lists of rows (`List (List Int)`);
* a D-dimensional array becomes a shape plus a value function on index
  vectors;
* python `//` on the positive divisors used by the code is `Int` division
  (`Int.ediv`, which rounds toward negative infinity exactly like python);
* fallible code paths (numpy broadcast errors, python TypeError) return
  `Except`.
-/

namespace Vesicle

/-! ### Box tables (src/util/bbox.py)

A bounding-box table row is a list of integers whose head is the instance
id and whose tail is the box, stored as alternating [min, max] columns,
one pair per axis.  This is the layout `merge_bbox_two_matrices`
documents: "Each matrix should have dimensions Nx(D+1) ... The first
column of each matrix represents the index of the bounding box."
-/

abbrev Row := List Int

abbrev Table := List Row

/-- Instance id of a row: its first column. -/
def rid (r : Row) : Int := r.headD 0

/-- Box part of a row: every column after the id. -/
def rbox (r : Row) : List Int := r.tail

/-- The id column of a table. -/
def tableIds (t : Table) : List Int := t.map rid

/-- `np.in1d`-style membership: does some row of `t` carry id `i`? -/
def hasId (t : Table) (i : Int) : Bool := (tableIds t).contains i

/-- First row of `t` whose id is `i` (`bbox_matrix_b[bbox_b_index, 1:][0]`
reads the first matching row). -/
def lookupRow (t : Table) (i : Int) : Option Row :=
  t.find? (fun r => rid r == i)

/-- A table whose id column has no duplicates (the InstanceBoxTable
invariant: ids are unique). -/
def uniqueIds (t : Table) : Prop := (tableIds t).Nodup

instance (t : Table) : Decidable (uniqueIds t) :=
  inferInstanceAs (Decidable ((tableIds t).Nodup))

/-- Modelled from the spec: `merge_bbox` is called by
`merge_bbox_two_matrices` (src/util/bbox.py, line 211) but its definition
is not among the repository sources.  The spec describes it as
`merge_box_pair(a, b)`: "the smallest Box containing both `a` and `b`
(elementwise min of minimums, max of maximums)", over the alternating
[min, max] columns of a box row. -/
def merge_bbox : List Int → List Int → List Int
  | a0 :: a1 :: arest, b0 :: b1 :: brest =>
      min a0 b0 :: max a1 b1 :: merge_bbox arest brest
  | _, _ => []

/-- One iteration of the update loop of `merge_bbox_two_matrices`
(src/util/bbox.py, lines 207-211) for one row `arow` of matrix `a` whose
id intersects matrix `b`: `bbox_b` is the first row of the current `b`
with that id, and every row of `b` with that id has its box columns
overwritten with `merge_bbox(bbox_a, bbox_b)`.  An `arow` whose id does
not occur in `b` is skipped by the loop (`np.where(intersect_id)`). -/
def mergeRowIntoB (b : Table) (arow : Row) : Table :=
  match b.find? (fun r => rid r == rid arow) with
  | none => b
  | some br => b.map (fun r =>
      if rid r == rid arow then rid r :: merge_bbox (rbox arow) (rbox br)
      else r)

/-- Final contents of argument `bbox_matrix_b` after
`merge_bbox_two_matrices(a, b)`: the update loop runs over the rows of
`a` in order, writing into `b` in place. -/
def applyMerges (a b : Table) : Table := a.foldl mergeRowIntoB b

/-- Return value of `merge_bbox_two_matrices(a, b)` for two non-None
matrices (src/util/bbox.py, lines 202-212): the rows of `a` whose id does
not occur in `b`, stacked on top of the updated `b`.  When no id is
shared the code returns `np.vstack([a, b])` directly, which this
expression also equals, since then no row of `a` is filtered out and `b`
is not updated. -/
def merge_two_tables (a b : Table) : Table :=
  a.filter (fun r => !(hasId b (rid r))) ++ applyMerges a b

/-- `merge_bbox_two_matrices` with the None handling of lines 198-201:
None stands for "no table yet" and the other argument is returned
unchanged. -/
def merge_bbox_two_matrices : Option Table → Option Table → Option Table
  | none, b => b
  | some a, none => some a
  | some a, some b => some (merge_two_tables a b)

/-- Call-state view of `merge_bbox_two_matrices(a, b)` on two matrices:
the returned matrix together with the final contents of the two argument
matrices after the call.  The code assigns only into `bbox_matrix_b`
(line 211); no statement writes into `bbox_matrix_a`, and the returned
matrix is a fresh `np.vstack`. -/
def mergeCallState (a b : Table) : Table × Table × Table :=
  (merge_two_tables a b, a, applyMerges a b)

/-- Folding a list of per-tile tables into one global table the way
`merge_bbox_tile` does (src/data/neuron_mask.py, lines 50-58): the
running table starts as None and every tile table is merged into it in
turn. -/
def foldMerge (l : List Table) : Option Table :=
  l.foldl (fun acc t => merge_bbox_two_matrices acc (some t)) none

/-- The id-to-row mapping denoted by an optional box matrix: the spec's
InstanceBoxTable is "a mapping from instance id to (Box, optional
count)", so two matrices denote the same table when they map every id to
the same row contents. -/
def toMap (o : Option Table) : Int → Option Row :=
  fun i =>
    match o with
    | none => none
    | some t => lookupRow t i

/-- Pointwise join of two id-to-row mappings: shared ids get the merged
box, unshared ids keep their row.  (Proof device for the fold theorems;
not part of the source.) -/
def mapJoin (f g : Int → Option Row) : Int → Option Row :=
  fun i =>
    match f i, g i with
    | some ar, some br => some (i :: merge_bbox (rbox ar) (rbox br))
    | some ar, none => some ar
    | none, ob => ob

/-- Box containment over alternating [min, max] columns: `outer` contains
`inner` when on every axis the outer min is at most the inner min and the
outer max is at least the inner max. -/
def boxContains : List Int → List Int → Prop
  | o0 :: o1 :: os, i0 :: i1 :: irest =>
      o0 ≤ i0 ∧ i1 ≤ o1 ∧ boxContains os irest
  | [], [] => True
  | _, _ => False

/-! ### compute_bbox (src/util/bbox.py, lines 4-31) -/

/-- A D-dimensional integer array: a shape and the value at each index
vector. -/
structure NDArr where
  shape : List Nat
  data : List Nat → Int

/-- Every index vector of a given shape, in row-major (C) order, the
order in which `np.where` enumerates positions. -/
def allIndices : List Nat → List (List Nat)
  | [] => [[]]
  | n :: rest => (List.range n).flatMap (fun i => (allIndices rest).map (i :: ·))

/-- The coordinates of the strictly positive entries,
`np.where(seg > 0)`. -/
def nonzeroIndices (a : NDArr) : List (List Nat) :=
  (allIndices a.shape).filter (fun ix => decide (0 < a.data ix))

/-- `.min()` of one axis of the `np.where` output (defined on non-empty
lists; `compute_bbox` only evaluates it after ruling out the empty
mask). -/
def npMin : List Nat → Nat
  | [] => 0
  | x :: xs => xs.foldl min x

/-- `.max()` of one axis of the `np.where` output. -/
def npMax : List Nat → Nat
  | [] => 0
  | x :: xs => xs.foldl max x

/-- `compute_bbox(seg, do_count)` (src/util/bbox.py, lines 4-31): None
when the mask has no positive pixel; otherwise, per axis, the min and the
max of the foreground coordinates, with the number of foreground pixels
appended when `do_count` is set. -/
def compute_bbox (a : NDArr) (do_count : Bool) : Option (List Nat) :=
  let nz := nonzeroIndices a
  if nz.isEmpty then none
  else
    some (((List.range a.shape.length).flatMap
        (fun i => [npMin (nz.map (fun ix => ix.getD i 0)),
                   npMax (nz.map (fun ix => ix.getD i 0))])) ++
      (if do_count then [nz.length] else []))

/-! ### compute_bbox_all_2d (src/util/bbox.py, lines 62-112) -/

/-- `np.unique` of a list of non-negative labels: the distinct values in
ascending order. -/
def npUnique (l : List Nat) : List Nat :=
  (List.range (npMax l + 1)).filter (fun v => l.contains v)

/-- `compute_bbox_all_2d(seg, do_count=False, uid)` (src/util/bbox.py,
lines 62-112).  `seg` is the 2D label map as a list of rows; `uid = none`
means all distinct positive values present in `seg`.  The running table
`out` has one row `[s, H, 0, W, 0]` per id `s` in `0..uid_max`
(`np.zeros` leaves the max columns at 0 and `out[:,1] = sz[0]`,
`out[:,3] = sz[1]` set the min columns); each row of `seg` with any
foreground tightens rows 1-2 for the ids it contains, each column
tightens rows 3-4; finally `out[uid]` selects the rows of the candidate
ids — with no sentinel filtering.  The `do_count` branch is not used by
any claim and is not modelled.  Labels are non-negative (`uint32`). -/
def compute_bbox_all_2d (seg : List (List Nat)) (uid : Option (List Nat)) :
    Option (List (List Nat)) :=
  let H := seg.length
  let W := (seg.headD []).length
  let uid1 :=
    match uid with
    | none => (npUnique seg.flatten).filter (fun v => decide (0 < v))
    | some u => u
  if uid1.isEmpty then none
  else
    let umax := npMax uid1
    let out0 : List (List Nat) :=
      (List.range (umax + 1)).map (fun s => [s, H, 0, W, 0])
    let rids := (List.range H).filter
      (fun r => (seg.getD r []).any (fun v => decide (0 < v)))
    let out1 := rids.foldl (fun tbl r =>
      let sid := (npUnique (seg.getD r [])).filter
        (fun v => decide (0 < v) && decide (v ≤ umax))
      tbl.map (fun row =>
        if sid.contains (row.headD 0) then
          [row.headD 0, min (row.getD 1 0) r, max (row.getD 2 0) r,
           row.getD 3 0, row.getD 4 0]
        else row)) out0
    let cids := (List.range W).filter
      (fun c => (seg.map (fun row => row.getD c 0)).any (fun v => decide (0 < v)))
    let out2 := cids.foldl (fun tbl c =>
      let sid := (npUnique (seg.map (fun row => row.getD c 0))).filter
        (fun v => decide (0 < v) && decide (v ≤ umax))
      tbl.map (fun row =>
        if sid.contains (row.headD 0) then
          [row.headD 0, row.getD 1 0, row.getD 2 0,
           min (row.getD 3 0) c, max (row.getD 4 0) c]
        else row)) out1
    some (uid1.map (fun u => out2.getD u []))

/-! ### Blank-slice repair (src/data/util/tile.py, lines 139-153) -/

/-- `np.any(slice > 0)` is false: the z-slice is entirely background. -/
def isBlank (s : List Int) : Bool := !(s.any (fun v => decide (0 < v)))

/-- The blank-slice repair block of `read_tile_image_by_bbox`
(src/data/util/tile.py, lines 139-153), acting on the assembled stack,
one entry per z-slice:
* `blank_st` scans forward for the first slice with foreground (the
  length of the maximal blank prefix);
* if every slice is blank, the code prints "!! This volume is all 0 !!"
  and leaves the stack unchanged;
* otherwise `result[:blank_st] = result[blank_st : blank_st+1]` fills the
  leading blanks with the first non-blank slice; `blank_lt` scans
  backward (never below `blank_st`, where the slice has foreground) for
  the last slice with foreground; then
  `result[blank_lt:] = result[blank_lt-1 : blank_lt]` assigns slice
  `blank_lt - 1` to every slice from `blank_lt` on — when `blank_lt = 0`
  the right-hand side `result[-1:0]` is empty and numpy raises a
  broadcast ValueError;
* finally each interior slice in `range(blank_st+1, blank_lt)` that is
  blank at that point copies its predecessor. -/
def blankRepair (stack : List (List Int)) : Except String (List (List Int)) :=
  let n := stack.length
  let bst := (stack.takeWhile isBlank).length
  if bst = n then
    Except.ok stack
  else
    let fill := stack.getD bst []
    let s1 := List.replicate bst fill ++ stack.drop bst
    let trailing := ((s1.drop bst).reverse.takeWhile isBlank).length
    let blt := n - 1 - trailing
    if blt = 0 then
      Except.error "ValueError: could not broadcast input array"
    else
      let s2 := s1.take blt ++ List.replicate (n - blt) (s1.getD (blt - 1) [])
      Except.ok ((List.range' (bst + 1) (blt - (bst + 1))).foldl
        (fun st z =>
          if isBlank (st.getD z []) then st.set z (st.getD (z - 1) []) else st)
        s2)

/-! ### z-range bookkeeping of read_tile_image_by_bbox
(src/data/util/tile.py, lines 96-115) -/

/-- Length of python `range(a, b, step)` for a positive step:
`max(0, ceil((b - a) / step))`. -/
def pyRangeLen (a b step : Int) : Nat := ((b - a + step - 1) / step).toNat

/-- python `range(a, b, step)` for a positive step. -/
def pyRange (a b step : Int) : List Int :=
  (List.range (pyRangeLen a b step)).map (fun i : Nat => a + step * (i : Int))

/-- The z-values the tile-reading loop visits when `volume_sz = None`:
line 113 clamps `z1 = min(len(filenames) - 1, z1)` and line 114 iterates
`range(z0, z1, zstep)` (with `volume_sz = None`, `z0 = z0p` and
`z1 = z1p` from lines 96-97). -/
def zVisited (numFiles : Nat) (z0p z1p zstep : Int) : List Int :=
  pyRange z0p (min ((numFiles : Int) - 1) z1p) zstep

/-- Number of destination z-slices allocated at line 99:
`(z1 - z0 + zstep - 1) // zstep` (non-negative whenever the allocation
succeeds; a negative value would make `np.zeros` fail). -/
def resultShapeZ (z0p z1p zstep : Int) : Nat := pyRangeLen z0p z1p zstep

/-- The z-assembly of `read_tile_image_by_bbox` with `volume_sz = None`,
in-memory output (`output_file = None`) and blank repair off
(`tile_blank = ""`): the destination starts as zeros (line 101) and
iteration `i` of the z-loop at line 114 overwrites destination slice `i`
with the composited content of z-slice `zVisited[i]` (lines 116-137,
abstracted by `composite`; a z whose tile files are all missing leaves
its zeros in place, which `composite` is also allowed to produce). -/
def assembleZ (numFiles : Nat) (z0p z1p zstep : Int) (sliceSize : Nat)
    (composite : Int → List Int) : List (List Int) :=
  ((zVisited numFiles z0p z1p zstep).enum).foldl
    (fun st zi => st.set zi.1 (composite zi.2))
    (List.replicate (resultShapeZ z0p z1p zstep) (List.replicate sliceSize 0))

/-! ### z-block addressing of read_tile_h5_by_bbox
(src/data/util/tile.py, lines 191-210) -/

/-- Range of z-block indices of `read_tile_h5_by_bbox` (lines 195-198):
`d0` by floor division, `d1` by ceiling division, and `d1` clamped to
`zz[2]` when `zz[2] > 0`.  `zyx0z` is `zyx0[0]`, `zszz` is `zyx_sz[0]`,
`zz0`/`zz2` are `zz[0]`/`zz[2]`. -/
def zBlockIndexRange (z0 z1 zyx0z zszz zz0 zz2 : Int) : Int × Int :=
  let d0 := max 0 (z0 - zyx0z - zz0) / zszz
  let d1 := (z1 - zyx0z - zz0 + zszz - 1) / zszz
  (d0, if 0 < zz2 then min zz2 d1 else d1)

/-- World z-extent [zp0, zp1) of z-block `zid` (lines 202-210): the
first block starts at its nominal offset and every later block starts
`zz[0]` slices later; every block ends `zz[0]` slices past its nominal
end, and the block whose index equals `zz[2]` ends a further `zz[1]`
later. -/
def zBlockExtent (zyx0z zszz zz0 zz1 zz2 zid : Int) : Int × Int :=
  let zp0 := zid * zszz + zyx0z + (if zid ≠ 0 then zz0 else 0)
  let zp1 := (zid + 1) * zszz + zyx0z + zz0 + (if zid = zz2 then zz1 else 0)
  (zp0, zp1)

/-! ### Output-mode dispatch of read_tile_h5_by_bbox
(src/data/util/tile.py, lines 174-189 and 273-275) -/

/-- python `sub in s` for strings. -/
def pyInStr (sub s : String) : Bool := (s.splitOn sub).length > 1

/-- A dense 3D destination: its shape and its contents. -/
structure Vol where
  shape : Nat × Nat × Nat
  at3 : Nat → Nat → Nat → Nat

/-- Destination allocation of `read_tile_h5_by_bbox` (lines 176-189):
the in-memory mode (`output_file = None`) allocates zeros of shape
`(z1-z0, y1-y0, x1-x0)`; a path containing ".h5" creates a chunked
dataset of the same shape; any other path allocates the rolling buffer
of shape `(zyx_sz[0] + max(zz[:2]), y1-y0, x1-x0)`. -/
def readTileH5Alloc (outputFile : Option String) (z0 z1 y0 y1 x0 x1 : Int)
    (zyxsz0 zzmax : Nat) : Vol :=
  match outputFile with
  | none =>
      { shape := ((z1 - z0).toNat, (y1 - y0).toNat, (x1 - x0).toNat),
        at3 := fun _ _ _ => 0 }
  | some s =>
      if pyInStr ".h5" s then
        { shape := ((z1 - z0).toNat, (y1 - y0).toNat, (x1 - x0).toNat),
          at3 := fun _ _ _ => 0 }
      else
        { shape := (zyxsz0 + zzmax, (y1 - y0).toNat, (x1 - x0).toNat),
          at3 := fun _ _ _ => 0 }

/-- The unconditional final dispatch of `read_tile_h5_by_bbox` (lines
273-275): after the chunk loop the code evaluates
`if '.h5' in output_file:` on every path.  With `output_file = None`,
python raises a TypeError (`in` applied to None); with an ".h5" path the
container is closed; in every string case the assembled `result` is then
returned. -/
def readTileH5Finish (outputFile : Option String) (result : Vol) :
    Except String Vol :=
  match outputFile with
  | none => Except.error "TypeError: argument of type NoneType is not iterable"
  | some s => if pyInStr ".h5" s then Except.ok result else Except.ok result

/-- `read_tile_h5_by_bbox` with the chunk loop abstracted: whatever the
loop of lines 200-272 turns the allocated destination into, the function
ends with the dispatch of line 273. -/
def readTileH5Pipeline (outputFile : Option String) (z0 z1 y0 y1 x0 x1 : Int)
    (zyxsz0 zzmax : Nat) (loop : Vol → Vol) : Except String Vol :=
  readTileH5Finish outputFile
    (loop (readTileH5Alloc outputFile z0 z1 y0 y1 x0 x1 zyxsz0 zzmax))

/-! ### Id accumulation (src/data/util/tile.py, lines 252-256) -/

/-- `np.max` of a chunk block; blocks are `uint16`, hence non-negative,
and the blocks the claims quantify over are non-empty, where
`foldl max 0` equals `np.max`. -/
def blockMax (tmp : List Nat) : Nat := tmp.foldl max 0

/-- One `acc_id` step (lines 252-255): record the local max of the block,
offset every positive value by the running max `mid`, then advance `mid`
by the recorded local max. -/
def accStep (mid : Nat) (tmp : List Nat) : List Nat × Nat :=
  (tmp.map (fun v => if 0 < v then v + mid else v), mid + blockMax tmp)

/-- Id accumulation over the chunk blocks in processing order, starting
from `mid = 0` (line 200). -/
def accChunks : Nat → List (List Nat) → List (List Nat)
  | _, [] => []
  | mid, c :: cs =>
      let s := accStep mid c
      s.1 :: accChunks s.2 cs

/-- Chunk indices in the order the loop nest of lines 201-218 processes
them: `zid` outermost over `range(d0, d1)`, then `yid` over
`range(r0, r1)`, then `xid` over `range(c0, c1)`, each ascending. -/
def chunkOrder (d0 d1 r0 r1 c0 c1 : Int) : List (Int × Int × Int) :=
  (pyRange d0 d1 1).flatMap (fun z =>
    (pyRange r0 r1 1).flatMap (fun y =>
      (pyRange c0 c1 1).map (fun x => (z, y, x))))

/-- Strict lexicographic order on chunk indices (z, then y, then x). -/
def idxLt (p q : Int × Int × Int) : Prop :=
  p.1 < q.1 ∨ (p.1 = q.1 ∧ (p.2.1 < q.2.1 ∨ (p.2.1 = q.2.1 ∧ p.2.2 < q.2.2)))

/-- The `acc_id` relabeling applied to the blocks of the intersecting
chunks in loop order. -/
def accAll (d0 d1 r0 r1 c0 c1 : Int) (block : Int × Int × Int → List Nat) :
    List (List Nat) :=
  accChunks 0 ((chunkOrder d0 d1 r0 r1 c0 c1).map block)

/-! ## Lemmas about the box-merge algebra -/

theorem merge_bbox_comm : ∀ (x y : List Int), merge_bbox x y = merge_bbox y x
  | [], [] => rfl
  | [], [_] => rfl
  | [], _ :: _ :: _ => rfl
  | [_], [] => rfl
  | [_], [_] => rfl
  | [_], _ :: _ :: _ => rfl
  | _ :: _ :: _, [] => rfl
  | _ :: _ :: _, [_] => rfl
  | a0 :: a1 :: as', b0 :: b1 :: bs => by
      simp [merge_bbox, merge_bbox_comm as' bs, min_comm, max_comm]

theorem merge_bbox_assoc : ∀ (x y z : List Int),
    merge_bbox (merge_bbox x y) z = merge_bbox x (merge_bbox y z)
  | [], _, _ => rfl
  | [_], _, _ => rfl
  | _ :: _ :: _, [], _ => rfl
  | _ :: _ :: _, [_], _ => rfl
  | _ :: _ :: _, _ :: _ :: _, [] => rfl
  | _ :: _ :: _, _ :: _ :: _, [_] => rfl
  | a0 :: a1 :: as', b0 :: b1 :: bs, c0 :: c1 :: cs => by
      simp [merge_bbox, merge_bbox_assoc as' bs cs, min_assoc, max_assoc]

/-- `merge_bbox` is the least upper bound for `boxContains` on boxes of
matching even width. -/
theorem merge_bbox_isLUB : ∀ (n : Nat) (x y : List Int),
    x.length = 2 * n → y.length = 2 * n →
    boxContains (merge_bbox x y) x ∧ boxContains (merge_bbox x y) y ∧
      ∀ c, boxContains c x → boxContains c y → boxContains c (merge_bbox x y) := by
  intro n
  induction n with
  | zero =>
      intro x y hx hy
      obtain rfl : x = [] := List.eq_nil_of_length_eq_zero (by omega)
      obtain rfl : y = [] := List.eq_nil_of_length_eq_zero (by omega)
      refine ⟨trivial, trivial, ?_⟩
      intro c hc _
      rcases c with _ | ⟨c0, _ | ⟨c1, cs⟩⟩
      · exact trivial
      · exact hc.elim
      · exact hc.elim
  | succ n ih =>
      intro x y hx hy
      rcases x with _ | ⟨x0, _ | ⟨x1, xs⟩⟩ <;> simp only [List.length_nil,
        List.length_cons] at hx
      · omega
      · omega
      rcases y with _ | ⟨y0, _ | ⟨y1, ys⟩⟩ <;> simp only [List.length_nil,
        List.length_cons] at hy
      · omega
      · omega
      have hxs : xs.length = 2 * n := by omega
      have hys : ys.length = 2 * n := by omega
      obtain ⟨h1, h2, h3⟩ := ih xs ys hxs hys
      refine ⟨⟨min_le_left _ _, le_max_left _ _, h1⟩,
        ⟨min_le_right _ _, le_max_right _ _, h2⟩, ?_⟩
      intro c hcx hcy
      rcases c with _ | ⟨c0, _ | ⟨c1, cs⟩⟩
      · exact hcx.elim
      · exact hcx.elim
      · exact ⟨le_min hcx.1 hcy.1, max_le hcx.2.1 hcy.2.1,
          h3 cs hcx.2.2 hcy.2.2⟩

/-! ## Lemmas about table lookup and the in-place update loop -/

theorem hasId_true_iff (t : Table) (i : Int) :
    hasId t i = true ↔ i ∈ tableIds t := by
  simp [hasId, List.elem_iff]

theorem lookupRow_eq_none (t : Table) (i : Int) :
    lookupRow t i = none ↔ hasId t i = false := by
  rw [lookupRow, List.find?_eq_none]
  constructor
  · intro h
    rw [← Bool.not_eq_true, hasId_true_iff]
    intro hmem
    obtain ⟨r, hr, hrid⟩ := List.mem_map.mp hmem
    exact h r hr (by simp [hrid])
  · intro h r hr hp
    have : i ∈ tableIds t := List.mem_map.mpr ⟨r, hr, by simpa using hp⟩
    rw [← hasId_true_iff] at this
    simp [h] at this

theorem rid_of_lookupRow {t : Table} {i : Int} {r : Row}
    (h : lookupRow t i = some r) : rid r = i := by
  simpa using List.find?_some h

theorem mem_of_lookupRow {t : Table} {i : Int} {r : Row}
    (h : lookupRow t i = some r) : r ∈ t :=
  List.mem_of_find?_eq_some h

theorem find?_map_rid (f : Row → Row) (hf : ∀ r, rid (f r) = rid r)
    (b : Table) (i : Int) :
    (b.map f).find? (fun r => rid r == i) =
      (b.find? (fun r => rid r == i)).map f := by
  induction b with
  | nil => rfl
  | cons r rs ih =>
      simp only [List.map_cons, List.find?_cons, hf r]
      cases h : (rid r == i) <;> simp [h, ih]

theorem tableIds_mergeRowIntoB (b : Table) (arow : Row) :
    tableIds (mergeRowIntoB b arow) = tableIds b := by
  unfold mergeRowIntoB
  cases hf : b.find? (fun r => rid r == rid arow) with
  | none => rfl
  | some br =>
      simp only [tableIds, List.map_map]
      apply List.map_congr_left
      intro r _
      show rid (if rid r == rid arow then
        rid r :: merge_bbox (rbox arow) (rbox br) else r) = rid r
      by_cases h : (rid r == rid arow) = true
      · rw [if_pos h]; rfl
      · rw [if_neg h]

theorem lookupRow_mergeRowIntoB (b : Table) (arow : Row) (i : Int) :
    lookupRow (mergeRowIntoB b arow) i =
      if i = rid arow then
        (lookupRow b i).map (fun br => i :: merge_bbox (rbox arow) (rbox br))
      else lookupRow b i := by
  unfold mergeRowIntoB
  cases hf : b.find? (fun r => rid r == rid arow) with
  | none =>
      by_cases hi : i = rid arow
      · subst hi
        have h0 : lookupRow b (rid arow) = none := hf
        rw [if_pos rfl, h0]
        rfl
      · rw [if_neg hi]
  | some br =>
      have hfr : rid br = rid arow := by simpa using List.find?_some hf
      have hstep : lookupRow (b.map (fun r =>
          if rid r == rid arow then
            rid r :: merge_bbox (rbox arow) (rbox br) else r)) i =
          (lookupRow b i).map (fun r =>
            if rid r == rid arow then
              rid r :: merge_bbox (rbox arow) (rbox br) else r) := by
        rw [lookupRow, lookupRow, find?_map_rid]
        intro r
        show rid (if rid r == rid arow then
          rid r :: merge_bbox (rbox arow) (rbox br) else r) = rid r
        by_cases h : (rid r == rid arow) = true
        · rw [if_pos h]; rfl
        · rw [if_neg h]
      rw [hstep]
      by_cases hi : i = rid arow
      · subst hi
        have h0 : lookupRow b (rid arow) = some br := hf
        rw [h0, if_pos rfl]
        show some (if (rid br == rid arow) = true then
          rid br :: merge_bbox (rbox arow) (rbox br) else br) =
          some (rid arow :: merge_bbox (rbox arow) (rbox br))
        rw [if_pos (by simp [hfr]), hfr]
      · rw [if_neg hi]
        cases hl : lookupRow b i with
        | none => rfl
        | some r0 =>
            have hr0 : rid r0 = i := rid_of_lookupRow hl
            show some (if (rid r0 == rid arow) = true then
              rid r0 :: merge_bbox (rbox arow) (rbox br) else r0) = some r0
            rw [if_neg (by rw [hr0]; simp [hi])]

theorem tableIds_applyMerges (a b : Table) :
    tableIds (applyMerges a b) = tableIds b := by
  induction a generalizing b with
  | nil => rfl
  | cons ar rest ih =>
      show tableIds (applyMerges rest (mergeRowIntoB b ar)) = tableIds b
      rw [ih, tableIds_mergeRowIntoB]

theorem uniqueIds_cons {ar : Row} {rest : Table} (h : uniqueIds (ar :: rest)) :
    rid ar ∉ tableIds rest ∧ uniqueIds rest := by
  have : (rid ar :: tableIds rest).Nodup := by
    simpa [uniqueIds, tableIds] using h
  exact List.nodup_cons.mp this

/-- Final contents of matrix `b` after the update loop, per id: a shared
id has its row overwritten with the merged box (the box of `a`'s unique
row for that id, joined with the box of `b`'s first row for it); every
other id keeps its row. -/
theorem lookupRow_applyMerges (a : Table) (ha : uniqueIds a) (b : Table)
    (i : Int) :
    lookupRow (applyMerges a b) i =
      (lookupRow a i).elim (lookupRow b i)
        (fun ar => (lookupRow b i).map
          (fun br => i :: merge_bbox (rbox ar) (rbox br))) := by
  induction a generalizing b with
  | nil =>
      simp [applyMerges, lookupRow, List.find?]
  | cons ar rest ih =>
      obtain ⟨hnotin, hrest⟩ := uniqueIds_cons ha
      show lookupRow (applyMerges rest (mergeRowIntoB b ar)) i = _
      rw [ih hrest, lookupRow_mergeRowIntoB]
      by_cases hi : i = rid ar
      · have h1 : lookupRow (ar :: rest) i = some ar := by
          simp [lookupRow, List.find?_cons, hi.symm]
        have h2 : lookupRow rest i = none := by
          rw [lookupRow_eq_none, ← Bool.not_eq_true, hasId_true_iff]
          rw [hi]
          exact hnotin
        rw [h1, h2]
        simp [hi]
      · have h1 : lookupRow (ar :: rest) i = lookupRow rest i := by
          have : (rid ar == i) = false := by
            simp
            exact fun h => hi h.symm
          simp [lookupRow, List.find?_cons, this]
        rw [h1]
        simp [hi]

theorem hasId_of_lookupRow_some {t : Table} {i : Int} {r : Row}
    (h : lookupRow t i = some r) : hasId t i = true :=
  (hasId_true_iff t i).mpr
    (List.mem_map.mpr ⟨r, mem_of_lookupRow h, rid_of_lookupRow h⟩)

theorem lookupRow_filter_found (q : Row → Bool) :
    ∀ (a : Table) (i : Int) (r : Row), lookupRow a i = some r → q r = true →
      lookupRow (a.filter q) i = some r := by
  intro a
  induction a with
  | nil => intro i r h _; simp [lookupRow] at h
  | cons x rest ih =>
      intro i r h hq
      by_cases hx : (rid x == i) = true
      · have hr : r = x := by
          rw [lookupRow] at h
          simp only [List.find?_cons, hx] at h
          exact (Option.some_inj.mp h).symm
        subst hr
        rw [List.filter_cons, if_pos hq, lookupRow]
        simp only [List.find?_cons, hx]
      · have hx2 : (rid x == i) = false := by simpa using hx
        rw [lookupRow] at h
        simp only [List.find?_cons, hx2] at h
        rw [List.filter_cons]
        cases hqx : q x with
        | true =>
            rw [if_pos rfl, lookupRow]
            simp only [List.find?_cons, hx2]
            exact ih i r h hq
        | false =>
            rw [if_neg (by simp)]
            exact ih i r h hq

theorem lookupRow_filter_none_of_none (q : Row → Bool) (a : Table) (i : Int)
    (h : lookupRow a i = none) : lookupRow (a.filter q) i = none := by
  rw [lookupRow, List.find?_eq_none]
  rw [lookupRow, List.find?_eq_none] at h
  intro x hx
  exact h x (List.mem_of_mem_filter hx)

theorem lookupRow_filter_none_of_qfalse (q : Row → Bool) (a : Table) (i : Int)
    (h : ∀ x ∈ a, rid x = i → q x = false) :
    lookupRow (a.filter q) i = none := by
  rw [lookupRow, List.find?_eq_none]
  intro x hx hp
  have hxa := List.mem_of_mem_filter hx
  have hqx := List.of_mem_filter hx
  have : q x = false := h x hxa (by simpa using hp)
  simp [this] at hqx

/-- Per-id contents of the matrix returned by `merge_bbox_two_matrices`:
a shared id maps to the merged box, an id of only one input keeps that
input's row. -/
theorem lookupRow_merge_two_tables (a b : Table) (ha : uniqueIds a) (i : Int) :
    lookupRow (merge_two_tables a b) i =
      (lookupRow a i).elim (lookupRow b i)
        (fun ar => (lookupRow b i).elim (some ar)
          (fun br => some (i :: merge_bbox (rbox ar) (rbox br)))) := by
  have happ : lookupRow (merge_two_tables a b) i =
      (lookupRow (a.filter (fun r => !(hasId b (rid r)))) i).or
        (lookupRow (applyMerges a b) i) := by
    rw [merge_two_tables, lookupRow, List.find?_append]
    rfl
  rw [happ, lookupRow_applyMerges a ha b i]
  cases hA : lookupRow a i with
  | none =>
      rw [lookupRow_filter_none_of_none _ a i hA]
      rfl
  | some ar =>
      cases hB : lookupRow b i with
      | none =>
          have hq : (!(hasId b (rid ar))) = true := by
            rw [rid_of_lookupRow hA]
            rw [lookupRow_eq_none] at hB
            simp [hB]
          rw [lookupRow_filter_found _ a i ar hA hq]
          rfl
      | some br =>
          have hBid : hasId b i = true := hasId_of_lookupRow_some hB
          rw [lookupRow_filter_none_of_qfalse _ a i ?_]
          · rfl
          · intro x _ hrid
            rw [hrid, hBid]
            rfl

theorem tableIds_append (t u : Table) :
    tableIds (t ++ u) = tableIds t ++ tableIds u := by
  simp [tableIds]

theorem tableIds_merge_two_tables (a b : Table) :
    tableIds (merge_two_tables a b) =
      tableIds (a.filter (fun r => !(hasId b (rid r)))) ++ tableIds b := by
  rw [merge_two_tables, tableIds_append, tableIds_applyMerges]

theorem uniqueIds_merge_two_tables (a b : Table) (ha : uniqueIds a)
    (hb : uniqueIds b) : uniqueIds (merge_two_tables a b) := by
  rw [uniqueIds, tableIds_merge_two_tables]
  apply List.Nodup.append
  · exact List.Nodup.sublist ((List.filter_sublist a).map rid) ha
  · exact hb
  · intro x hx hxb
    obtain ⟨r, hr, rfl⟩ := List.mem_map.mp hx
    have hqr := List.of_mem_filter hr
    have : hasId b (rid r) = true := (hasId_true_iff b (rid r)).mpr hxb
    simp [this] at hqr

theorem hasId_merge_two_tables (a b : Table) (i : Int) :
    hasId (merge_two_tables a b) i = (hasId a i || hasId b i) := by
  rw [Bool.eq_iff_iff, Bool.or_eq_true, hasId_true_iff, hasId_true_iff,
    hasId_true_iff, tableIds_merge_two_tables]
  constructor
  · intro h
    rcases List.mem_append.mp h with h1 | h2
    · obtain ⟨r, hr, rfl⟩ := List.mem_map.mp h1
      exact Or.inl (List.mem_map.mpr ⟨r, List.mem_of_mem_filter hr, rfl⟩)
    · exact Or.inr h2
  · intro h
    rcases h with h1 | h2
    · cases hbi : hasId b i with
      | true =>
          exact List.mem_append.mpr (Or.inr ((hasId_true_iff b i).mp hbi))
      | false =>
          obtain ⟨r, hr, rfl⟩ := List.mem_map.mp h1
          refine List.mem_append.mpr (Or.inl (List.mem_map.mpr
            ⟨r, List.mem_filter.mpr ⟨hr, ?_⟩, rfl⟩))
          simp [hbi]
    · exact List.mem_append.mpr (Or.inr h2)

/-- C1: for InstanceBoxTable matrices `a` and `b` (first column the id,
each id at most once per table, rows of width 1+2D),
`merge_bbox_two_matrices` returns a table whose id set is exactly the
union of the two id sets with a single row per id; an id present in only
one input keeps its row as-is, and a shared id gets the smallest box
containing both source boxes. -/
theorem merge_two_tables_correct (D : Nat) (a b : Table)
    (ha : uniqueIds a) (hb : uniqueIds b)
    (hwa : ∀ r ∈ a, r.length = 1 + 2 * D)
    (hwb : ∀ r ∈ b, r.length = 1 + 2 * D) :
    uniqueIds (merge_two_tables a b)
    ∧ (∀ i, hasId (merge_two_tables a b) i = (hasId a i || hasId b i))
    ∧ (∀ i ar, lookupRow a i = some ar → lookupRow b i = none →
        lookupRow (merge_two_tables a b) i = some ar)
    ∧ (∀ i, lookupRow a i = none →
        lookupRow (merge_two_tables a b) i = lookupRow b i)
    ∧ (∀ i ar br, lookupRow a i = some ar → lookupRow b i = some br →
        lookupRow (merge_two_tables a b) i =
            some (i :: merge_bbox (rbox ar) (rbox br))
          ∧ boxContains (merge_bbox (rbox ar) (rbox br)) (rbox ar)
          ∧ boxContains (merge_bbox (rbox ar) (rbox br)) (rbox br)
          ∧ ∀ c, boxContains c (rbox ar) → boxContains c (rbox br) →
              boxContains c (merge_bbox (rbox ar) (rbox br))) := by
  refine ⟨uniqueIds_merge_two_tables a b ha hb, hasId_merge_two_tables a b,
    ?_, ?_, ?_⟩
  · intro i ar hA hB
    rw [lookupRow_merge_two_tables a b ha i, hA, hB]
    rfl
  · intro i hA
    rw [lookupRow_merge_two_tables a b ha i, hA]
    rfl
  · intro i ar br hA hB
    have har : (rbox ar).length = 2 * D := by
      have := hwa ar (mem_of_lookupRow hA)
      rw [rbox, List.length_tail, this]
      omega
    have hbr : (rbox br).length = 2 * D := by
      have := hwb br (mem_of_lookupRow hB)
      rw [rbox, List.length_tail, this]
      omega
    obtain ⟨h1, h2, h3⟩ := merge_bbox_isLUB D (rbox ar) (rbox br) har hbr
    refine ⟨?_, h1, h2, h3⟩
    rw [lookupRow_merge_two_tables a b ha i, hA, hB]
    rfl

/-- Witness for the C1 theorem: two concrete 2D tables sharing id 1. -/
theorem merge_two_tables_correct_witness :
    lookupRow (merge_two_tables [[1, 0, 1, 0, 1]]
      [[1, 2, 3, 2, 3], [2, 5, 6, 5, 6]]) 1 = some [1, 0, 3, 0, 3] := by
  have h := (merge_two_tables_correct 2 [[1, 0, 1, 0, 1]]
    [[1, 2, 3, 2, 3], [2, 5, 6, 5, 6]] (by decide) (by decide) (by decide)
    (by decide)).2.2.2.2 1 [1, 0, 1, 0, 1] [1, 2, 3, 2, 3]
    (by decide) (by decide)
  exact h.1

/-- C9 counterexample: merging tables that share id 1 overwrites the
box of the shared row of argument `bbox_matrix_b` in place, so after the
call `b` no longer holds the values it held before. -/
theorem merge_mutates_b_counterexample :
    (mergeCallState [[1, 0, 1, 0, 1]] [[1, 2, 3, 2, 3]]).2.2 =
        [[1, 0, 3, 0, 3]]
    ∧ (mergeCallState [[1, 0, 1, 0, 1]] [[1, 2, 3, 2, 3]]).2.2 ≠
        [[1, 2, 3, 2, 3]] := by
  decide

theorem applyMerges_eq_of_disjoint :
    ∀ (a b : Table), (∀ r ∈ a, hasId b (rid r) = false) →
      applyMerges a b = b := by
  intro a
  induction a with
  | nil => intro b _; rfl
  | cons ar rest ih =>
      intro b hd
      show applyMerges rest (mergeRowIntoB b ar) = b
      have h1 : mergeRowIntoB b ar = b := by
        unfold mergeRowIntoB
        have h0 : lookupRow b (rid ar) = none :=
          (lookupRow_eq_none b (rid ar)).mpr (hd ar (by simp))
        rw [show b.find? (fun r => rid r == rid ar) =
          lookupRow b (rid ar) from rfl, h0]
      rw [h1]
      exact ih b (fun r hr => hd r (by simp [hr]))

/-- C9 (amended): `merge_bbox_two_matrices` never modifies matrix `a`;
matrix `b` is modified in place exactly on its rows whose id also occurs
in `a` (those get the merged box); when the id sets are disjoint both
arguments are left unchanged, which is the only case in which the
operation is pure over both inputs. -/
theorem mergeCallState_frame (a b : Table) (ha : uniqueIds a) :
    (mergeCallState a b).2.1 = a
    ∧ ((∀ r ∈ a, hasId b (rid r) = false) → (mergeCallState a b).2.2 = b)
    ∧ (∀ i, hasId a i = false →
        lookupRow (mergeCallState a b).2.2 i = lookupRow b i)
    ∧ (∀ i ar br, lookupRow a i = some ar → lookupRow b i = some br →
        lookupRow (mergeCallState a b).2.2 i =
          some (i :: merge_bbox (rbox ar) (rbox br))) := by
  refine ⟨rfl, applyMerges_eq_of_disjoint a b, ?_, ?_⟩
  · intro i hf
    show lookupRow (applyMerges a b) i = lookupRow b i
    rw [lookupRow_applyMerges a ha b i, (lookupRow_eq_none a i).mpr hf]
    rfl
  · intro i ar br hA hB
    show lookupRow (applyMerges a b) i = _
    rw [lookupRow_applyMerges a ha b i, hA, hB]
    rfl

/-- Witness for the C9 amended theorem: a concrete call in which the
non-shared row of `b` is untouched. -/
theorem mergeCallState_frame_witness :
    lookupRow (mergeCallState [[1, 0, 1, 0, 1]]
      [[1, 2, 3, 2, 3], [2, 5, 6, 5, 6]]).2.2 2 =
      lookupRow [[1, 2, 3, 2, 3], [2, 5, 6, 5, 6]] 2 :=
  (mergeCallState_frame [[1, 0, 1, 0, 1]] [[1, 2, 3, 2, 3], [2, 5, 6, 5, 6]]
    (by decide)).2.2.1 2 (by decide)

/-! ## Fold-order independence of merging (C3) -/

theorem toMap_merge (a b : Table) (ha : uniqueIds a) :
    ∀ i, toMap (merge_bbox_two_matrices (some a) (some b)) i =
      mapJoin (toMap (some a)) (toMap (some b)) i := by
  intro i
  show lookupRow (merge_two_tables a b) i = _
  rw [lookupRow_merge_two_tables a b ha i]
  cases hA : lookupRow a i <;> cases hB : lookupRow b i <;>
    simp [mapJoin, Option.elim, show toMap (some a) i = _ from hA,
      show toMap (some b) i = _ from hB]

theorem merge_bbox_left_comm (x y z : List Int) :
    merge_bbox x (merge_bbox y z) = merge_bbox y (merge_bbox x z) := by
  rw [← merge_bbox_assoc, merge_bbox_comm x y, merge_bbox_assoc]

theorem mapJoin_right_comm (m g1 g2 : Int → Option Row) (i : Int) :
    mapJoin (mapJoin m g1) g2 i = mapJoin (mapJoin m g2) g1 i := by
  unfold mapJoin
  cases m i <;> cases g1 i <;> cases g2 i <;>
    simp [rbox, merge_bbox_assoc, merge_bbox_comm, merge_bbox_left_comm]

theorem toMap_foldl (l : List Table) (hu : ∀ t ∈ l, uniqueIds t) :
    ∀ (acc : Table), uniqueIds acc →
      toMap (l.foldl (fun acc t => merge_bbox_two_matrices acc (some t))
          (some acc)) =
        l.foldl (fun m t => mapJoin m (toMap (some t))) (toMap (some acc)) := by
  induction l with
  | nil => intro acc _; rfl
  | cons t rest ih =>
      intro acc hacc
      have ht : uniqueIds t := hu t (by simp)
      have hrest : ∀ s ∈ rest, uniqueIds s := fun s hs => hu s (by simp [hs])
      rw [List.foldl_cons, List.foldl_cons]
      rw [show merge_bbox_two_matrices (some acc) (some t) =
        some (merge_two_tables acc t) from rfl]
      rw [ih hrest (merge_two_tables acc t)
        (uniqueIds_merge_two_tables acc t hacc ht)]
      congr 1
      funext i
      exact toMap_merge acc t hacc i

theorem toMap_foldMerge (l : List Table) (hu : ∀ t ∈ l, uniqueIds t) :
    toMap (foldMerge l) =
      l.foldl (fun m t => mapJoin m (toMap (some t))) (toMap none) := by
  cases l with
  | nil => rfl
  | cons t rest =>
      have ht : uniqueIds t := hu t (by simp)
      have hrest : ∀ s ∈ rest, uniqueIds s := fun s hs => hu s (by simp [hs])
      rw [foldMerge, List.foldl_cons, List.foldl_cons]
      rw [show merge_bbox_two_matrices none (some t) = some t from rfl]
      rw [toMap_foldl rest hrest t ht]
      congr 1

theorem foldl_mapJoin_perm {l l' : List Table} (hp : l.Perm l') :
    ∀ (m : Int → Option Row),
      l.foldl (fun m t => mapJoin m (toMap (some t))) m =
      l'.foldl (fun m t => mapJoin m (toMap (some t))) m := by
  induction hp with
  | nil => intro m; rfl
  | cons x _ ih =>
      intro m
      rw [List.foldl_cons, List.foldl_cons]
      exact ih _
  | swap x y rest =>
      intro m
      rw [List.foldl_cons, List.foldl_cons, List.foldl_cons, List.foldl_cons]
      congr 1
      funext i
      exact mapJoin_right_comm m (toMap (some y)) (toMap (some x)) i
  | trans _ _ ih1 ih2 =>
      intro m
      exact (ih1 m).trans (ih2 m)

/-- C3: folding any fixed collection of per-tile tables into one global
table by repeated `merge_bbox_two_matrices` starting from None yields,
for every permutation of the fold order, the same final
InstanceBoxTable, i.e. the same id-to-row mapping: the merge is
associative and order-independent at the level of the table the matrix
denotes. -/
theorem foldMerge_perm_invariant (l l' : List Table) (hp : l.Perm l')
    (hu : ∀ t ∈ l, uniqueIds t) :
    ∀ i, toMap (foldMerge l) i = toMap (foldMerge l') i := by
  intro i
  have hu' : ∀ t ∈ l', uniqueIds t := fun t ht => hu t (hp.mem_iff.mpr ht)
  rw [toMap_foldMerge l hu, toMap_foldMerge l' hu',
    foldl_mapJoin_perm hp]

/-- Witness for the C3 theorem at two concrete fold orders of the same
two tiles. -/
theorem foldMerge_perm_invariant_witness :
    toMap (foldMerge [[[1, 0, 1, 0, 1]], [[2, 5, 6, 5, 6]]]) 2 =
      toMap (foldMerge [[[2, 5, 6, 5, 6]], [[1, 0, 1, 0, 1]]]) 2 :=
  foldMerge_perm_invariant [[[1, 0, 1, 0, 1]], [[2, 5, 6, 5, 6]]]
    [[[2, 5, 6, 5, 6]], [[1, 0, 1, 0, 1]]] (by decide) (by decide) 2

/-! ## compute_bbox against the exhaustive-scan specification (C2) -/

theorem foldl_min_le (xs : List Nat) :
    ∀ (x y : Nat), y ∈ x :: xs → xs.foldl min x ≤ y := by
  induction xs with
  | nil =>
      intro x y hy
      rcases List.mem_singleton.mp hy with rfl
      exact le_refl _
  | cons z zs ih =>
      intro x y hy
      rw [List.foldl_cons]
      rcases hy with _ | ⟨_, hy⟩
      · exact le_trans (ih (min x z) (min x z) (by simp)) (min_le_left x z)
      · rcases hy with _ | ⟨_, hy⟩
        · exact le_trans (ih (min x z) (min x z) (by simp)) (min_le_right x z)
        · exact ih (min x z) _ (List.mem_cons.mpr (Or.inr hy))

theorem foldl_min_mem (xs : List Nat) :
    ∀ x, xs.foldl min x ∈ x :: xs := by
  induction xs with
  | nil => intro x; simp
  | cons z zs ih =>
      intro x
      rw [List.foldl_cons]
      have h := ih (min x z)
      rcases List.mem_cons.mp h with h1 | h2
      · rcases min_choice x z with hc | hc <;> rw [h1, hc] <;> simp
      · simp [h2]

theorem le_foldl_max (xs : List Nat) :
    ∀ (x y : Nat), y ∈ x :: xs → y ≤ xs.foldl max x := by
  induction xs with
  | nil =>
      intro x y hy
      rcases List.mem_singleton.mp hy with rfl
      exact le_refl _
  | cons z zs ih =>
      intro x y hy
      rw [List.foldl_cons]
      rcases hy with _ | ⟨_, hy⟩
      · exact le_trans (le_max_left x z) (ih (max x z) (max x z) (by simp))
      · rcases hy with _ | ⟨_, hy⟩
        · exact le_trans (le_max_right x z) (ih (max x z) (max x z) (by simp))
        · exact ih (max x z) _ (List.mem_cons.mpr (Or.inr hy))

theorem foldl_max_mem (xs : List Nat) :
    ∀ x, xs.foldl max x ∈ x :: xs := by
  induction xs with
  | nil => intro x; simp
  | cons z zs ih =>
      intro x
      rw [List.foldl_cons]
      have h := ih (max x z)
      rcases List.mem_cons.mp h with h1 | h2
      · rcases max_choice x z with hc | hc <;> rw [h1, hc] <;> simp
      · simp [h2]

theorem npMin_mem {l : List Nat} (h : l ≠ []) : npMin l ∈ l := by
  cases l with
  | nil => exact absurd rfl h
  | cons x xs => exact foldl_min_mem xs x

theorem npMin_le {l : List Nat} (y : Nat) (hy : y ∈ l) : npMin l ≤ y := by
  cases l with
  | nil => simp at hy
  | cons x xs => exact foldl_min_le xs x y hy

theorem npMax_mem {l : List Nat} (h : l ≠ []) : npMax l ∈ l := by
  cases l with
  | nil => exact absurd rfl h
  | cons x xs => exact foldl_max_mem xs x

theorem le_npMax {l : List Nat} (y : Nat) (hy : y ∈ l) : y ≤ npMax l := by
  cases l with
  | nil => simp at hy
  | cons x xs => exact le_foldl_max xs x y hy

/-- `allIndices` enumerates exactly the index vectors that are pointwise
within the shape. -/
theorem mem_allIndices :
    ∀ (sh : List Nat) (ix : List Nat),
      ix ∈ allIndices sh ↔ List.Forall₂ (· < ·) ix sh := by
  intro sh
  induction sh with
  | nil =>
      intro ix
      simp [allIndices, List.forall₂_nil_right_iff]
  | cons n rest ih =>
      intro ix
      simp only [allIndices, List.mem_flatMap, List.mem_map, List.mem_range]
      constructor
      · rintro ⟨j, hj, tl, htl, rfl⟩
        exact List.Forall₂.cons hj ((ih tl).mp htl)
      · intro h
        cases h with
        | cons hj htl =>
            exact ⟨_, hj, _, (ih _).mpr htl, rfl⟩

theorem mem_nonzeroIndices (a : NDArr) (ix : List Nat) :
    ix ∈ nonzeroIndices a ↔
      List.Forall₂ (· < ·) ix a.shape ∧ 0 < a.data ix := by
  simp [nonzeroIndices, List.mem_filter, mem_allIndices]

theorem length_flatMap_pairs (f g : Nat → Nat) :
    ∀ (n : Nat), ((List.range n).flatMap (fun j => [f j, g j])).length = 2 * n := by
  intro n
  induction n with
  | zero => rfl
  | succ m ih =>
      rw [List.range_succ, List.flatMap_append, List.length_append, ih]
      simp [Nat.mul_succ]

theorem getD_flatMap_pairs (f g : Nat → Nat) :
    ∀ (n i : Nat), i < n →
      ((List.range n).flatMap (fun j => [f j, g j])).getD (2 * i) 0 = f i ∧
      ((List.range n).flatMap (fun j => [f j, g j])).getD (2 * i + 1) 0 = g i := by
  intro n
  induction n with
  | zero => intro i hi; omega
  | succ m ih =>
      intro i hi
      rw [List.range_succ, List.flatMap_append]
      by_cases him : i < m
      · have hlen := length_flatMap_pairs f g m
        constructor
        · rw [List.getD_append _ _ _ _ (by omega)]
          exact (ih i him).1
        · rw [List.getD_append _ _ _ _ (by omega)]
          exact (ih i him).2
      · have him' : i = m := by omega
        subst him'
        have hlen := length_flatMap_pairs f g i
        constructor
        · rw [List.getD_append_right _ _ _ _ (by omega), hlen]
          simp
        · rw [List.getD_append_right _ _ _ _ (by omega), hlen]
          have : 2 * i + 1 - 2 * i = 1 := by omega
          simp [this]

/-- C2: `compute_bbox` returns the absence value exactly when the mask
has no foreground position; on a mask with foreground it returns, per
axis, exactly the minimum and the maximum over all foreground
coordinates — the result of an exhaustive scan — and with `do_count` the
appended entry counts the foreground positions. -/
theorem compute_bbox_correct (a : NDArr) (dc : Bool) :
    (compute_bbox a dc = none ↔
      ∀ ix, List.Forall₂ (· < ·) ix a.shape → a.data ix ≤ 0)
    ∧ (∀ out, compute_bbox a dc = some out →
        (∀ i, i < a.shape.length →
          (∃ ix, List.Forall₂ (· < ·) ix a.shape ∧ 0 < a.data ix ∧
              ix.getD i 0 = out.getD (2 * i) 0)
          ∧ (∀ ix, List.Forall₂ (· < ·) ix a.shape → 0 < a.data ix →
              out.getD (2 * i) 0 ≤ ix.getD i 0)
          ∧ (∃ ix, List.Forall₂ (· < ·) ix a.shape ∧ 0 < a.data ix ∧
              ix.getD i 0 = out.getD (2 * i + 1) 0)
          ∧ (∀ ix, List.Forall₂ (· < ·) ix a.shape → 0 < a.data ix →
              ix.getD i 0 ≤ out.getD (2 * i + 1) 0))
        ∧ (dc = true → out.getD (2 * a.shape.length) 0 =
            (allIndices a.shape).countP (fun ix => decide (0 < a.data ix)))) := by
  constructor
  · constructor
    · intro h ix hix
      by_contra hpos
      push_neg at hpos
      have hmem : ix ∈ nonzeroIndices a :=
        (mem_nonzeroIndices a ix).mpr ⟨hix, hpos⟩
      rw [compute_bbox] at h
      by_cases he : (nonzeroIndices a).isEmpty
      · rw [List.isEmpty_iff] at he
        rw [he] at hmem
        simp at hmem
      · simp [he] at h
    · intro h
      rw [compute_bbox]
      have he : (nonzeroIndices a).isEmpty = true := by
        rw [List.isEmpty_iff, List.eq_nil_iff_forall_not_mem]
        intro ix hmem
        obtain ⟨hix, hpos⟩ := (mem_nonzeroIndices a ix).mp hmem
        exact absurd (h ix hix) (by omega)
      simp [he]
  · intro out hout
    rw [compute_bbox] at hout
    by_cases he : (nonzeroIndices a).isEmpty
    · simp [he] at hout
    · simp only [he, Bool.false_eq_true, if_false] at hout
      have hne : nonzeroIndices a ≠ [] := by
        intro hnil
        rw [List.isEmpty_iff] at he
        exact he hnil
      obtain rfl := (Option.some_inj.mp hout).symm
      have hlenp := length_flatMap_pairs
        (fun i => npMin ((nonzeroIndices a).map (fun ix => ix.getD i 0)))
        (fun i => npMax ((nonzeroIndices a).map (fun ix => ix.getD i 0)))
        a.shape.length
      constructor
      · intro i hi
        have hget := getD_flatMap_pairs
          (fun i => npMin ((nonzeroIndices a).map (fun ix => ix.getD i 0)))
          (fun i => npMax ((nonzeroIndices a).map (fun ix => ix.getD i 0)))
          a.shape.length i hi
        have hg1 : (((List.range a.shape.length).flatMap
            (fun i => [npMin ((nonzeroIndices a).map (fun ix => ix.getD i 0)),
              npMax ((nonzeroIndices a).map (fun ix => ix.getD i 0))])) ++
            (if dc then [(nonzeroIndices a).length] else [])).getD (2 * i) 0 =
            npMin ((nonzeroIndices a).map (fun ix => ix.getD i 0)) := by
          rw [List.getD_append _ _ _ _ (by omega)]
          exact hget.1
        have hg2 : (((List.range a.shape.length).flatMap
            (fun i => [npMin ((nonzeroIndices a).map (fun ix => ix.getD i 0)),
              npMax ((nonzeroIndices a).map (fun ix => ix.getD i 0))])) ++
            (if dc then [(nonzeroIndices a).length] else [])).getD (2 * i + 1) 0 =
            npMax ((nonzeroIndices a).map (fun ix => ix.getD i 0)) := by
          rw [List.getD_append _ _ _ _ (by omega)]
          exact hget.2
        have hcne : (nonzeroIndices a).map (fun ix => ix.getD i 0) ≠ [] := by
          simp [hne]
        refine ⟨?_, ?_, ?_, ?_⟩
        · obtain ⟨ix, hmem, hval⟩ := List.mem_map.mp (npMin_mem hcne)
          obtain ⟨hix, hpos⟩ := (mem_nonzeroIndices a ix).mp hmem
          exact ⟨ix, hix, hpos, by rw [hg1, hval]⟩
        · intro ix hix hpos
          rw [hg1]
          exact npMin_le _ (List.mem_map.mpr
            ⟨ix, (mem_nonzeroIndices a ix).mpr ⟨hix, hpos⟩, rfl⟩)
        · obtain ⟨ix, hmem, hval⟩ := List.mem_map.mp (npMax_mem hcne)
          obtain ⟨hix, hpos⟩ := (mem_nonzeroIndices a ix).mp hmem
          exact ⟨ix, hix, hpos, by rw [hg2, hval]⟩
        · intro ix hix hpos
          rw [hg2]
          exact le_npMax _ (List.mem_map.mpr
            ⟨ix, (mem_nonzeroIndices a ix).mpr ⟨hix, hpos⟩, rfl⟩)
      · intro hdc
        subst hdc
        rw [List.getD_append_right _ _ _ _ (by omega), hlenp]
        simp only [Nat.sub_self, if_true]
        show (nonzeroIndices a).length = _
        rw [nonzeroIndices, List.countP_eq_length_filter]

/-- Witness for the C2 theorem: a concrete 2x3 mask with foreground at
[0,1] and [1,2]; the appended count equals the exhaustive foreground
count. -/
theorem compute_bbox_correct_witness :
    [0, 1, 1, 2, 2].getD (2 * 2) 0 =
      (allIndices [2, 3]).countP (fun ix =>
        decide (0 < (if ix = [0, 1] then (1 : Int)
          else if ix = [1, 2] then 2 else 0))) := by
  have h := ((compute_bbox_correct
    { shape := [2, 3],
      data := fun ix => if ix = [0, 1] then (1 : Int)
        else if ix = [1, 2] then 2 else 0 } true).2
    [0, 1, 1, 2, 2] (by decide)).2 rfl
  exact h

/-! ## Blank-slice repair (C4) -/

/-- C4 (evidence of the code bug): on the assembled stack [[1], [2]] —
two slices, both with foreground, nothing to repair — the trailing
assignment `result[blank_lt:] = result[blank_lt-1 : blank_lt]` fires
with `blank_lt` at the LAST slice with foreground instead of the first
trailing blank, overwriting the foreground slice [2] with its
predecessor; on [[1], [2], [0]] the trailing blank slice receives [1],
not its nearest non-blank neighbor [2], and [2] itself is destroyed. -/
theorem blankRepair_overwrites_foreground :
    blankRepair [[1], [2]] = Except.ok [[1], [1]]
    ∧ isBlank [2] = false
    ∧ blankRepair [[1], [2], [0]] = Except.ok [[1], [1], [1]] :=
  ⟨rfl, rfl, rfl⟩

/-! ## Sentinel rows in compute_bbox_all_2d (C5) -/

/-- C5 (evidence of the code bug): for the 2D label map [[1]] and the
caller-supplied candidate id 2 — an id with no pixel — the returned
table contains the row [2, 1, 0, 1, 0], i.e. id 2 with its untightened
initialization box (ymin = H = 1, ymax = 0, xmin = W = 1, xmax = 0):
`compute_bbox_all_2d` returns `out[uid]` without dropping sentinel
rows, although its docstring promises "Instances with no pixels are
excluded from the output". -/
theorem compute_bbox_all_2d_keeps_sentinel :
    compute_bbox_all_2d [[1]] (some [2]) = some [[2, 1, 0, 1, 0]]
    ∧ ([[1]] : List (List Nat)).flatten.contains 2 = false := by
  decide

/-! ## In-memory output mode of read_tile_h5_by_bbox (C6) -/

/-- C6 (evidence of the code bug): with `output_file = None` (the
in-memory mode) the function never returns normally: whatever the chunk
loop composites into the allocated destination, the unconditional final
dispatch `if '.h5' in output_file:` at line 273 evaluates `in` on None
and raises a TypeError instead of returning the assembled array. -/
theorem readTileH5_inmemory_type_error (z0 z1 y0 y1 x0 x1 : Int)
    (zyxsz0 zzmax : Nat) (loop : Vol → Vol) :
    readTileH5Pipeline none z0 z1 y0 y1 x0 x1 zyxsz0 zzmax loop =
      Except.error "TypeError: argument of type NoneType is not iterable" :=
  rfl

/-! ## Id accumulation (C7) -/

theorem pyRange_one_pairwise (a b : Int) :
    (pyRange a b 1).Pairwise (· < ·) := by
  unfold pyRange
  rw [List.pairwise_map]
  apply List.Pairwise.imp ?_ (List.pairwise_lt_range _)
  intro i j h
  show a + 1 * (i : Int) < a + 1 * (j : Int)
  omega

theorem accChunks_getD (cs : List (List Nat)) :
    ∀ (mid i : Nat), i < cs.length →
      (accChunks mid cs).getD i [] =
        (cs.getD i []).map (fun v =>
          if 0 < v then v + (mid + ((cs.take i).map blockMax).sum) else v) := by
  induction cs with
  | nil => intro mid i hi; simp at hi
  | cons c rest ih =>
      intro mid i hi
      cases i with
      | zero =>
          show ((accStep mid c).1 :: _).getD 0 [] = _
          simp [accStep]
      | succ j =>
          have hj : j < rest.length := by simpa using hi
          show (accChunks (mid + blockMax c) rest).getD j [] = _
          rw [ih (mid + blockMax c) j hj]
          simp only [List.getD_cons_succ, List.take_succ_cons, List.map_cons,
            List.sum_cons]
          congr 1
          funext v
          by_cases hv : 0 < v
          · simp only [hv, if_true]
            omega
          · simp [hv]

/-- C7: with `acc_id` enabled the chunks are processed in strictly
ascending chunk-index order; the block of the chunk at position `i` of
that order has every positive value offset by the running maximum, which
equals the sum of the local maxima of all previously processed chunks;
and for two chunks locally labeled {1, 2} each, the output blocks are
[1, 2] and [3, 4]: four distinct ids, the first two from chunk 0 and the
last two from chunk 1. -/
theorem acc_id_correct (d0 d1 r0 r1 c0 c1 : Int) :
    (chunkOrder d0 d1 r0 r1 c0 c1).Pairwise idxLt
    ∧ (∀ (cs : List (List Nat)) (mid i : Nat), i < cs.length →
        (accChunks mid cs).getD i [] =
          (cs.getD i []).map (fun v =>
            if 0 < v then v + (mid + ((cs.take i).map blockMax).sum) else v))
    ∧ accAll 0 2 0 1 0 1 (fun _ => [1, 2]) = [[1, 2], [3, 4]]
    ∧ (accAll 0 2 0 1 0 1 (fun _ => [1, 2])).flatten.Nodup := by
  refine ⟨?_, accChunks_getD, by decide, by decide⟩
  unfold chunkOrder
  rw [List.pairwise_flatMap]
  constructor
  · intro z _
    rw [List.pairwise_flatMap]
    constructor
    · intro y _
      rw [List.pairwise_map]
      apply (pyRange_one_pairwise c0 c1).imp
      intro x1 x2 h
      exact Or.inr ⟨rfl, Or.inr ⟨rfl, h⟩⟩
    · apply (pyRange_one_pairwise r0 r1).imp
      intro y1 y2 h p hp q hq
      obtain ⟨x1, _, rfl⟩ := List.mem_map.mp hp
      obtain ⟨x2, _, rfl⟩ := List.mem_map.mp hq
      exact Or.inr ⟨rfl, Or.inl h⟩
  · apply (pyRange_one_pairwise d0 d1).imp
    intro z1 z2 h p hp q hq
    simp only [List.mem_flatMap, List.mem_map] at hp hq
    obtain ⟨y1, _, x1, _, rfl⟩ := hp
    obtain ⟨y2, _, x2, _, rfl⟩ := hq
    exact Or.inl h

/-- Witness for the C7 theorem: the offset rule evaluated at the second
of two concrete chunks. -/
theorem acc_id_correct_witness :
    (accChunks 0 [[1, 2], [1, 2]]).getD 1 [] =
      ([[1, 2], [1, 2]].getD 1 ([] : List Nat)).map (fun v =>
        if 0 < v then
          v + (0 + (([[1, 2], [1, 2]].take 1).map blockMax).sum)
        else v) :=
  (acc_id_correct 0 2 0 1 0 1).2.1 [[1, 2], [1, 2]] 0 1 (by decide)

/-! ## z-block extents of read_tile_h5_by_bbox (C8) -/

/-- C8 counterexample: with zz = [2, 5, 7], zyx0[0] = 0 and
zyx_sz[0] = 10, block zid = 1 ends at 22 — its nominal end 20 plus
zz[0] = 2 — and not at 25 = nominal end plus extra_trail = zz[1] as the
claim states. -/
theorem zBlockExtent_counterexample :
    (zBlockExtent 0 10 2 5 7 1).2 = 22
    ∧ (zBlockExtent 0 10 2 5 7 1).2 ≠ (1 + 1) * 10 + 0 + 5 := by
  decide

/-- C8 (amended): the first z-block starts at its nominal offset and
every later block starts `zz[0]` slices later; every block ends `zz[0]`
(not `zz[1]`) slices past its nominal end, except that the block whose
index equals `zz[2]` ends a further `zz[1]` later; and when `zz[2] > 0`
the loop's exclusive upper block index is clamped to `zz[2]`. -/
theorem zBlockExtent_rule (zyx0z zszz zz0 zz1 zz2 zid z0 z1 : Int) :
    ((zBlockExtent zyx0z zszz zz0 zz1 zz2 0).1 = 0 * zszz + zyx0z)
    ∧ (zid ≠ 0 → (zBlockExtent zyx0z zszz zz0 zz1 zz2 zid).1 =
        zid * zszz + zyx0z + zz0)
    ∧ (zid ≠ zz2 → (zBlockExtent zyx0z zszz zz0 zz1 zz2 zid).2 =
        (zid + 1) * zszz + zyx0z + zz0)
    ∧ (zid = zz2 → (zBlockExtent zyx0z zszz zz0 zz1 zz2 zid).2 =
        (zid + 1) * zszz + zyx0z + zz0 + zz1)
    ∧ (0 < zz2 → (zBlockIndexRange z0 z1 zyx0z zszz zz0 zz2).2 =
        min zz2 ((z1 - zyx0z - zz0 + zszz - 1) / zszz)) := by
  refine ⟨by simp [zBlockExtent], fun h => by simp [zBlockExtent, h],
    fun h => by simp [zBlockExtent, h], fun h => by simp [zBlockExtent, h],
    fun h => by simp [zBlockIndexRange, h]⟩

/-- Witness for the C8 amended theorem: block 3 of a grid with
zyx_sz[0] = 10, zyx0[0] = 0 and zz = [2, 5, 7] starts at 32 and ends at
42. -/
theorem zBlockExtent_rule_witness :
    (zBlockExtent 0 10 2 5 7 3).1 = 3 * 10 + 0 + 2
    ∧ (zBlockExtent 0 10 2 5 7 3).2 = (3 + 1) * 10 + 0 + 2 :=
  ⟨(zBlockExtent_rule 0 10 2 5 7 3 0 0).2.1 (by decide),
   (zBlockExtent_rule 0 10 2 5 7 3 0 0).2.2.1 (by decide)⟩

/-! ## Trailing destination slices of read_tile_image_by_bbox (C10) -/

theorem pyRange_mem_lt {a b s : Int} (hs : 0 < s) {z : Int}
    (hz : z ∈ pyRange a b s) : z < b := by
  simp only [pyRange, List.mem_map, List.mem_range] at hz
  obtain ⟨i, hi, rfl⟩ := hz
  rw [pyRangeLen] at hi
  have h2 := Int.lt_toNat.mp hi
  have h3 : ((i : Int) + 1) * s ≤ b - a + s - 1 :=
    (Int.le_ediv_iff_mul_le hs).mp (by omega)
  nlinarith

theorem foldl_set_length (l : List (Nat × Int)) (f : Int → List Int) :
    ∀ (st : List (List Int)),
      (l.foldl (fun st zi => st.set zi.1 (f zi.2)) st).length = st.length := by
  induction l with
  | nil => intro st; rfl
  | cons p rest ih =>
      intro st
      rw [List.foldl_cons, ih, List.length_set]

theorem foldl_set_getD_untouched (l : List (Nat × Int)) (f : Int → List Int)
    (k : Nat) (hk : ∀ p ∈ l, p.1 ≠ k) :
    ∀ (st : List (List Int)),
      (l.foldl (fun st zi => st.set zi.1 (f zi.2)) st).getD k [] =
        st.getD k [] := by
  induction l with
  | nil => intro st; rfl
  | cons p rest ih =>
      intro st
      rw [List.foldl_cons, ih (fun q hq => hk q (by simp [hq]))]
      rw [List.getD_eq_getElem?_getD, List.getElem?_set_ne (hk p (by simp)),
        ← List.getD_eq_getElem?_getD]

/-- C10: with `volume_sz = None`, in-memory output and blank repair off,
the assembled stack has exactly `ceil((z1p - z0p) / zstep)` z-slices;
every z the loop visits is strictly below `len(filenames) - 1`, so the
filename pattern at the last index is never read (in particular when
`z1p = len(filenames)`); and when `z1p >= len(filenames)` every
destination slice beyond the visited count is never written and stays at
the zero fill. -/
theorem read_tile_image_z_loop (numFiles : Nat) (z0p z1p zstep : Int)
    (ss : Nat) (f : Int → List Int) (hs : 0 < zstep) :
    (assembleZ numFiles z0p z1p zstep ss f).length =
        resultShapeZ z0p z1p zstep
    ∧ (∀ z ∈ zVisited numFiles z0p z1p zstep, z < (numFiles : Int) - 1)
    ∧ ((numFiles : Int) ≤ z1p →
        ∀ k, (zVisited numFiles z0p z1p zstep).length ≤ k →
          k < resultShapeZ z0p z1p zstep →
          (assembleZ numFiles z0p z1p zstep ss f).getD k [] =
            List.replicate ss 0) := by
  refine ⟨?_, ?_, ?_⟩
  · unfold assembleZ
    rw [foldl_set_length, List.length_replicate]
  · intro z hz
    exact lt_of_lt_of_le (pyRange_mem_lt hs hz) (min_le_left _ _)
  · intro _ k hk hk2
    unfold assembleZ
    rw [foldl_set_getD_untouched]
    · rw [List.getD_eq_getElem?_getD, List.getElem?_replicate, if_pos hk2]
      rfl
    · intro p hp
      have := List.fst_lt_of_mem_enum hp
      omega

/-- Witness for the C10 theorem: requesting z in [0, 4) from 4 filename
patterns visits z = 0, 1, 2 only, and destination slice 3 stays zero. -/
theorem read_tile_image_z_loop_witness :
    (assembleZ 4 0 4 1 1 (fun z => [z + 1])).getD 3 [] =
      List.replicate 1 0 :=
  (read_tile_image_z_loop 4 0 4 1 1 (fun z => [z + 1]) (by decide)).2.2
    (by decide) 3 (by decide) (by decide)

end Vesicle
